import Mathlib

/-
  Shallow embedding of rustedbrain (src/main.rs), a Brainfuck interpreter.

  Bytes are modelled as natural numbers (the relevant byte values:
  '>' = 62, '<' = 60, '+' = 43, '-' = 45, '.' = 46, ',' = 44,
  '[' = 91, ']' = 93).  `usize` arithmetic on `Wrapping<usize>` is modelled
  as arithmetic modulo 2^64; `Wrapping<u8>` cell arithmetic is modulo 256.
  The `HashMap<usize, usize>` of loop links is modelled as an association
  list where `insert` prepends (first-match lookup gives the overwrite
  semantics of `HashMap::insert`).  The fixed `[Wrapping<u8>; 30000]` tape
  is modelled as a function `Nat → Nat` together with the static length
  `PROGRAM_MEMORY = 30000` used by the bounds checks (`self.mem.len()` is
  statically 30000 for the fixed-size array).  `stdin` is modelled as a
  list of pending input bytes threaded through `step`; `print!` output is
  returned as a list of bytes.  A Rust panic (`unwrap` / `expect` /
  `read_exact` failure) is modelled as `none` in the `Option` layer of
  `step`'s result.
-/

/-- The eight recognized instruction bytes (Program::is_valid_bchar). -/
def is_valid_bchar (bchar : Nat) : Bool :=
  bchar = 62 || bchar = 60 || bchar = 43 || bchar = 45 ||
  bchar = 46 || bchar = 44 || bchar = 91 || bchar = 93

/-- Load-time errors of Program::new (enum ProgramError). -/
inductive ProgramError where
  | LoopBeginningWithoutEnd
  | LoopEndWithoutBeginning
deriving DecidableEq, Repr

/-- A loaded program: filtered code plus the loop-link table
(struct Program). -/
structure Program where
  code : List Nat
  loop_links : List (Nat × Nat)
deriving DecidableEq, Repr

/-- Lookup in the association-list model of the HashMap: first match wins,
mirroring HashMap lookup after overwriting inserts. -/
def lookupLL : List (Nat × Nat) → Nat → Option Nat
  | [], _ => none
  | (k, v) :: rest, x => if x = k then some v else lookupLL rest x

/-- The bracket-resolution loop of Program::new: scan the filtered code from
index `i` with the stack of pending loop-start indices
(`unfinished_loop_links`) and the accumulated link table.  On `[` push the
index; on `]` pop the matching start (error `LoopEndWithoutBeginning` when
the stack is empty) and insert both directions into the table; after the
scan a non-empty stack is the error `LoopBeginningWithoutEnd`. -/
def resolveLinks : List Nat → Nat → List Nat → List (Nat × Nat) →
    Except ProgramError (List (Nat × Nat))
  | [], _, stack, links =>
    if stack.isEmpty then .ok links else .error .LoopBeginningWithoutEnd
  | bchar :: rest, i, stack, links =>
    if bchar = 91 then
      resolveLinks rest (i + 1) (i :: stack) links
    else if bchar = 93 then
      match stack with
      | [] => .error .LoopEndWithoutBeginning
      | top :: stack' =>
        resolveLinks rest (i + 1) stack' ((i, top) :: (top, i) :: links)
    else
      resolveLinks rest (i + 1) stack links

/-- Program::new: retain only the eight instruction bytes, then resolve the
loop links. -/
def Program.new (input_code : List Nat) : Except ProgramError Program :=
  let code := input_code.filter is_valid_bchar
  match resolveLinks code 0 [] [] with
  | .error e => .error e
  | .ok links => .ok ⟨code, links⟩

/-- PROGRAM_MEMORY: the fixed tape length. -/
def PROGRAM_MEMORY : Nat := 30000

/-- Modulus of `Wrapping<usize>` arithmetic on a 64-bit target. -/
def U64 : Nat := 2 ^ 64

/-- `Wrapping<usize>` increment. -/
def wrapAdd1 (x : Nat) : Nat := (x + 1) % U64

/-- `Wrapping<usize>` decrement. -/
def wrapSub1 (x : Nat) : Nat := (x + (U64 - 1)) % U64

/-- Runtime state (struct ProgramRuntime): program counter, tape contents,
memory pointer.  The tape's fixed length 30000 lives in the bounds checks
(PROGRAM_MEMORY). -/
structure ProgramRuntime where
  pc : Nat
  mem : Nat → Nat
  mem_ptr : Nat

/-- Pointwise update of the tape function (`self.mem[loc] = …`). -/
def updf (f : Nat → Nat) (k v : Nat) : Nat → Nat :=
  fun x => if x = k then v else f x

/-- ProgramRuntime::new: counter and pointer at zero, all cells zero. -/
def ProgramRuntime.new : ProgramRuntime :=
  { pc := 0, mem := fun _ => 0, mem_ptr := 0 }

/-- Run-time errors (enum ProgramRuntimeError). -/
inductive ProgramRuntimeError where
  | ReadAccessViolation
  | WriteAccessViolation
deriving DecidableEq, Repr

/-- Step status (enum ProgramRuntimeStatus). -/
inductive ProgramRuntimeStatus where
  | RanInstructionAtPC (pc : Nat)
  | EndOfProgram
deriving DecidableEq, Repr

/-- ProgramRuntime::read_mem: bounds-checked read. -/
def read_mem (rt : ProgramRuntime) (loc : Nat) :
    Except ProgramRuntimeError Nat :=
  if loc < PROGRAM_MEMORY then .ok (rt.mem loc)
  else .error .ReadAccessViolation

/-- ProgramRuntime::read_mem_at_ptr. -/
def read_mem_at_ptr (rt : ProgramRuntime) : Except ProgramRuntimeError Nat :=
  read_mem rt rt.mem_ptr

/-- ProgramRuntime::write_mem: bounds-checked write. -/
def write_mem (rt : ProgramRuntime) (loc val : Nat) :
    Except ProgramRuntimeError ProgramRuntime :=
  if loc < PROGRAM_MEMORY then .ok { rt with mem := updf rt.mem loc val }
  else .error .WriteAccessViolation

/-- ProgramRuntime::write_mem_at_ptr. -/
def write_mem_at_ptr (rt : ProgramRuntime) (val : Nat) :
    Except ProgramRuntimeError ProgramRuntime :=
  write_mem rt rt.mem_ptr val

/-- ProgramRuntime::inc_mem_at_ptr: wrapping increment of the cell at the
pointer, returning the new value; WriteAccessViolation when out of
bounds. -/
def inc_mem_at_ptr (rt : ProgramRuntime) :
    Except ProgramRuntimeError (Nat × ProgramRuntime) :=
  if rt.mem_ptr < PROGRAM_MEMORY then
    .ok ((rt.mem rt.mem_ptr + 1) % 256,
      { rt with mem := updf rt.mem rt.mem_ptr ((rt.mem rt.mem_ptr + 1) % 256) })
  else .error .WriteAccessViolation

/-- ProgramRuntime::dec_mem_at_ptr: wrapping decrement (adding 255 mod 256
models `-= Wrapping(1)` on a byte). -/
def dec_mem_at_ptr (rt : ProgramRuntime) :
    Except ProgramRuntimeError (Nat × ProgramRuntime) :=
  if rt.mem_ptr < PROGRAM_MEMORY then
    .ok ((rt.mem rt.mem_ptr + 255) % 256,
      { rt with mem := updf rt.mem rt.mem_ptr ((rt.mem rt.mem_ptr + 255) % 256) })
  else .error .WriteAccessViolation

/-- ProgramRuntime::step.  Returns `none` for a panic (stdin exhaustion on
`,`, or an `unwrap` of a missing loop link); otherwise the Except carries
either a runtime error (state discarded, pc not committed — the Rust early
returns before `self.pc = next_pc` and before any mutation) or the status
together with the new state, the remaining input and the emitted output. -/
def step (p : Program) (rt : ProgramRuntime) (input : List Nat) :
    Option (Except ProgramRuntimeError
      (ProgramRuntimeStatus × ProgramRuntime × List Nat × List Nat)) :=
  if p.code.length ≤ rt.pc then
    some (.ok (.EndOfProgram, rt, input, []))
  else if p.code.getD rt.pc 0 = 62 then
    some (.ok (.RanInstructionAtPC rt.pc,
      { rt with mem_ptr := wrapAdd1 rt.mem_ptr, pc := wrapAdd1 rt.pc },
      input, []))
  else if p.code.getD rt.pc 0 = 60 then
    some (.ok (.RanInstructionAtPC rt.pc,
      { rt with mem_ptr := wrapSub1 rt.mem_ptr, pc := wrapAdd1 rt.pc },
      input, []))
  else if p.code.getD rt.pc 0 = 43 then
    match inc_mem_at_ptr rt with
    | .error e => some (.error e)
    | .ok (_, rt2) =>
      some (.ok (.RanInstructionAtPC rt.pc,
        { rt2 with pc := wrapAdd1 rt.pc }, input, []))
  else if p.code.getD rt.pc 0 = 45 then
    match dec_mem_at_ptr rt with
    | .error e => some (.error e)
    | .ok (_, rt2) =>
      some (.ok (.RanInstructionAtPC rt.pc,
        { rt2 with pc := wrapAdd1 rt.pc }, input, []))
  else if p.code.getD rt.pc 0 = 46 then
    match read_mem_at_ptr rt with
    | .error e => some (.error e)
    | .ok v =>
      some (.ok (.RanInstructionAtPC rt.pc,
        { rt with pc := wrapAdd1 rt.pc }, input, [v]))
  else if p.code.getD rt.pc 0 = 44 then
    match input with
    | [] => none
    | b :: rest =>
      match write_mem_at_ptr rt b with
      | .error e => some (.error e)
      | .ok rt2 =>
        some (.ok (.RanInstructionAtPC rt.pc,
          { rt2 with pc := wrapAdd1 rt.pc }, rest, []))
  else if p.code.getD rt.pc 0 = 91 then
    match read_mem_at_ptr rt with
    | .error e => some (.error e)
    | .ok v =>
      if v = 0 then
        match lookupLL p.loop_links rt.pc with
        | none => none
        | some t =>
          some (.ok (.RanInstructionAtPC rt.pc,
            { rt with pc := wrapAdd1 t }, input, []))
      else
        some (.ok (.RanInstructionAtPC rt.pc,
          { rt with pc := wrapAdd1 rt.pc }, input, []))
  else if p.code.getD rt.pc 0 = 93 then
    match read_mem_at_ptr rt with
    | .error e => some (.error e)
    | .ok v =>
      if v ≠ 0 then
        match lookupLL p.loop_links rt.pc with
        | none => none
        | some t =>
          some (.ok (.RanInstructionAtPC rt.pc,
            { rt with pc := wrapAdd1 t }, input, []))
      else
        some (.ok (.RanInstructionAtPC rt.pc,
          { rt with pc := wrapAdd1 rt.pc }, input, []))
  else
    some (.ok (.RanInstructionAtPC rt.pc,
      { rt with pc := wrapAdd1 rt.pc }, input, []))

/-- The driver loop of main, with explicit fuel: call step until
EndOfProgram, accumulating output.  `none` models a panic or running out of
fuel before termination. -/
def runFuel (p : Program) : Nat → ProgramRuntime → List Nat → List Nat →
    Option (Except ProgramRuntimeError (ProgramRuntime × List Nat))
  | 0, _, _, _ => none
  | fuel + 1, rt, input, out =>
    match step p rt input with
    | none => none
    | some (.error e) => some (.error e)
    | some (.ok (.EndOfProgram, rt2, _, o)) => some (.ok (rt2, out ++ o))
    | some (.ok (.RanInstructionAtPC _, rt2, input2, o)) =>
      runFuel p fuel rt2 input2 (out ++ o)

/-- Claim C6: when the program counter is at or past the end of the code,
step returns EndOfProgram and leaves the whole runtime state (counter,
pointer, every cell) and the input untouched, emitting no output. -/
theorem step_end_of_program_frame (p : Program) (rt : ProgramRuntime)
    (input : List Nat) (h : p.code.length ≤ rt.pc) :
    step p rt input = some (.ok (.EndOfProgram, rt, input, [])) := by
  simp only [step, if_pos h]

/-- Witness for C6: the empty program (after filtering) immediately yields
end-of-program from the initial state. -/
theorem step_end_of_program_frame_witness :
    (Program.mk [] []).code.length ≤ ProgramRuntime.new.pc ∧
    step (Program.mk [] []) ProgramRuntime.new [] =
      some (.ok (.EndOfProgram, ProgramRuntime.new, [], [])) :=
  ⟨Nat.le_refl 0, step_end_of_program_frame (Program.mk [] []) ProgramRuntime.new [] (Nat.le_refl 0)⟩

/-- Claim C5: loading `[` alone fails with LoopBeginningWithoutEnd, loading
`]` alone fails with LoopEndWithoutBeginning, and loading `][` also fails
with LoopEndWithoutBeginning (the unmatched `]` is hit first in the
left-to-right scan); no Program is produced in any of the three cases. -/
theorem new_unmatched_bracket_errors :
    Program.new [91] = .error .LoopBeginningWithoutEnd ∧
    Program.new [93] = .error .LoopEndWithoutBeginning ∧
    Program.new [93, 91] = .error .LoopEndWithoutBeginning :=
  ⟨rfl, rfl, rfl⟩

/-- Claim C7: with an in-bounds memory pointer, cell arithmetic wraps
modulo 256: `+` on a cell holding 255 succeeds and leaves the cell at 0,
and `-` on a cell holding 0 succeeds and leaves the cell at 255. -/
theorem step_cell_arith_wraps (p : Program) (rt : ProgramRuntime)
    (input : List Nat) (hpc : rt.pc < p.code.length)
    (hptr : rt.mem_ptr < PROGRAM_MEMORY) :
    (p.code.getD rt.pc 0 = 43 → rt.mem rt.mem_ptr = 255 →
      step p rt input = some (.ok (.RanInstructionAtPC rt.pc,
        { rt with pc := wrapAdd1 rt.pc, mem := updf rt.mem rt.mem_ptr 0 },
        input, []))) ∧
    (p.code.getD rt.pc 0 = 45 → rt.mem rt.mem_ptr = 0 →
      step p rt input = some (.ok (.RanInstructionAtPC rt.pc,
        { rt with pc := wrapAdd1 rt.pc, mem := updf rt.mem rt.mem_ptr 255 },
        input, []))) := by
  constructor <;> intro hc hv <;> rw [List.getD_eq_getElem?_getD] at hc <;>
    simp [step, inc_mem_at_ptr, dec_mem_at_ptr, hc, hv, hptr,
      Nat.not_le.mpr hpc]

/-- Witness for C7: `+` on a cell at 255 wraps it to 0. -/
theorem step_cell_arith_wraps_witness :
    (0 : Nat) < PROGRAM_MEMORY ∧
    step (Program.mk [43] []) (ProgramRuntime.mk 0 (updf (fun _ => 0) 0 255) 0) [] =
      some (.ok (.RanInstructionAtPC 0,
        ProgramRuntime.mk (wrapAdd1 0) (updf (updf (fun _ => 0) 0 255) 0 0) 0,
        [], [])) :=
  ⟨by decide,
    (step_cell_arith_wraps (Program.mk [43] [])
      (ProgramRuntime.mk 0 (updf (fun _ => 0) 0 255) 0) []
      (by decide) (by decide)).1 rfl rfl⟩

/-- Claim C8: the pointer moves `>` and `<` never fail and do no bounds
check: they wrap the memory pointer modulo 2^64 (the full usize range, not
the tape length), `<` at pointer 0 lands on 2^64 - 1, and the committed
program counter uses the same full-width wrap-around increment. -/
theorem step_ptr_moves_wrap (p : Program) (rt : ProgramRuntime)
    (input : List Nat) (hpc : rt.pc < p.code.length) :
    (p.code.getD rt.pc 0 = 62 →
      step p rt input = some (.ok (.RanInstructionAtPC rt.pc,
        { rt with mem_ptr := wrapAdd1 rt.mem_ptr, pc := wrapAdd1 rt.pc },
        input, []))) ∧
    (p.code.getD rt.pc 0 = 60 →
      step p rt input = some (.ok (.RanInstructionAtPC rt.pc,
        { rt with mem_ptr := wrapSub1 rt.mem_ptr, pc := wrapAdd1 rt.pc },
        input, []))) ∧
    (p.code.getD rt.pc 0 = 60 → rt.mem_ptr = 0 →
      step p rt input = some (.ok (.RanInstructionAtPC rt.pc,
        { rt with mem_ptr := U64 - 1, pc := wrapAdd1 rt.pc },
        input, []))) ∧
    wrapAdd1 rt.pc = (rt.pc + 1) % 2 ^ 64 ∧
    wrapSub1 rt.mem_ptr = (rt.mem_ptr + (2 ^ 64 - 1)) % 2 ^ 64 := by
  refine ⟨?_, ?_, ?_, rfl, rfl⟩ <;> intro hc <;>
    rw [List.getD_eq_getElem?_getD] at hc
  · simp [step, hc, Nat.not_le.mpr hpc]
  · simp [step, hc, Nat.not_le.mpr hpc]
  · intro h0
    have hw : wrapSub1 rt.mem_ptr = U64 - 1 := by
      rw [h0]; norm_num [wrapSub1, U64]
    simp [step, hc, Nat.not_le.mpr hpc, hw]

/-- Witness for C8: `<` from the initial state (pointer 0) sets the pointer
to 2^64 - 1 and succeeds. -/
theorem step_ptr_moves_wrap_witness :
    ProgramRuntime.new.pc < (Program.mk [60] []).code.length ∧
    step (Program.mk [60] []) ProgramRuntime.new [] =
      some (.ok (.RanInstructionAtPC 0,
        ProgramRuntime.mk (wrapAdd1 0) (fun _ => 0) (U64 - 1), [], [])) :=
  ⟨by decide,
    (step_ptr_moves_wrap (Program.mk [60] []) ProgramRuntime.new []
      (by decide)).2.2.1 rfl rfl⟩

/-- Claim C4: with the memory pointer outside the tape (at or past
PROGRAM_MEMORY), every memory-accessing instruction fails before taking
effect: the reading instructions `.`, `[` and `]` yield
ReadAccessViolation, while the writing instructions `+`, `-` and `,`
(given that stdin can supply a byte) yield WriteAccessViolation; the two
errors are distinct, and on such an error step commits no new state (no
cell is modified and the counter is not advanced — the error result
carries no successor state). -/
theorem step_oob_access_violation (p : Program) (rt : ProgramRuntime)
    (input : List Nat) (hpc : rt.pc < p.code.length)
    (hptr : PROGRAM_MEMORY ≤ rt.mem_ptr) :
    (p.code.getD rt.pc 0 = 46 →
      step p rt input = some (.error .ReadAccessViolation)) ∧
    (p.code.getD rt.pc 0 = 91 →
      step p rt input = some (.error .ReadAccessViolation)) ∧
    (p.code.getD rt.pc 0 = 93 →
      step p rt input = some (.error .ReadAccessViolation)) ∧
    (p.code.getD rt.pc 0 = 43 →
      step p rt input = some (.error .WriteAccessViolation)) ∧
    (p.code.getD rt.pc 0 = 45 →
      step p rt input = some (.error .WriteAccessViolation)) ∧
    (p.code.getD rt.pc 0 = 44 → input ≠ [] →
      step p rt input = some (.error .WriteAccessViolation)) ∧
    ProgramRuntimeError.ReadAccessViolation ≠
      ProgramRuntimeError.WriteAccessViolation := by
  have hnotlt : ¬ rt.mem_ptr < PROGRAM_MEMORY := Nat.not_lt.mpr hptr
  refine ⟨?_, ?_, ?_, ?_, ?_, ?_, by simp⟩ <;> intro hc <;>
    rw [List.getD_eq_getElem?_getD] at hc
  · simp [step, hc, Nat.not_le.mpr hpc, read_mem_at_ptr, read_mem, hnotlt]
  · simp [step, hc, Nat.not_le.mpr hpc, read_mem_at_ptr, read_mem, hnotlt]
  · simp [step, hc, Nat.not_le.mpr hpc, read_mem_at_ptr, read_mem, hnotlt]
  · simp [step, hc, Nat.not_le.mpr hpc, inc_mem_at_ptr, hnotlt]
  · simp [step, hc, Nat.not_le.mpr hpc, dec_mem_at_ptr, hnotlt]
  · intro hne
    match input with
    | [] => exact absurd rfl hne
    | b :: rest =>
      simp [step, hc, Nat.not_le.mpr hpc, write_mem_at_ptr, write_mem, hnotlt]

/-- Witness for C4: after moving right from the maximum valid index 29999
the pointer sits at 30000; executing `.` there yields a
ReadAccessViolation. -/
theorem step_oob_access_violation_witness :
    PROGRAM_MEMORY ≤ (ProgramRuntime.mk 0 (fun _ => 0) 30000).mem_ptr ∧
    step (Program.mk [46] []) (ProgramRuntime.mk 0 (fun _ => 0) 30000) [] =
      some (.error .ReadAccessViolation) :=
  ⟨by decide,
    (step_oob_access_violation (Program.mk [46] [])
      (ProgramRuntime.mk 0 (fun _ => 0) 30000) []
      (by decide) (by decide)).1 rfl⟩

/-- Claim C1: on a loop-start `[` with an in-bounds pointer, if the cell at
the pointer is zero the committed counter is one past the loop-link table's
entry for this index (the matching `]`), else the counter advances by one;
on a loop-end `]`, if the cell is non-zero the committed counter is one
past the table's entry (the matching `[`), else it advances by one. -/
theorem step_loop_branch_correct (p : Program) (rt : ProgramRuntime)
    (input : List Nat) (t : Nat) (hpc : rt.pc < p.code.length)
    (hptr : rt.mem_ptr < PROGRAM_MEMORY)
    (hlink : lookupLL p.loop_links rt.pc = some t) :
    (p.code.getD rt.pc 0 = 91 →
      (rt.mem rt.mem_ptr = 0 →
        step p rt input = some (.ok (.RanInstructionAtPC rt.pc,
          { rt with pc := wrapAdd1 t }, input, []))) ∧
      (rt.mem rt.mem_ptr ≠ 0 →
        step p rt input = some (.ok (.RanInstructionAtPC rt.pc,
          { rt with pc := wrapAdd1 rt.pc }, input, [])))) ∧
    (p.code.getD rt.pc 0 = 93 →
      (rt.mem rt.mem_ptr ≠ 0 →
        step p rt input = some (.ok (.RanInstructionAtPC rt.pc,
          { rt with pc := wrapAdd1 t }, input, []))) ∧
      (rt.mem rt.mem_ptr = 0 →
        step p rt input = some (.ok (.RanInstructionAtPC rt.pc,
          { rt with pc := wrapAdd1 rt.pc }, input, [])))) := by
  constructor <;> intro hc <;> rw [List.getD_eq_getElem?_getD] at hc <;>
    constructor <;> intro hv <;>
    simp [step, hc, hv, hlink, Nat.not_le.mpr hpc,
      read_mem_at_ptr, read_mem, hptr]

/-- Witness for C1: on the program `[]` with all cells zero, the `[` at
index 0 jumps to one past its matching `]` at index 1. -/
theorem step_loop_branch_correct_witness :
    lookupLL (Program.mk [91, 93] [(1, 0), (0, 1)]).loop_links 0 = some 1 ∧
    step (Program.mk [91, 93] [(1, 0), (0, 1)]) ProgramRuntime.new [] =
      some (.ok (.RanInstructionAtPC 0,
        ProgramRuntime.mk (wrapAdd1 1) (fun _ => 0) 0, [], [])) :=
  ⟨rfl,
    ((step_loop_branch_correct (Program.mk [91, 93] [(1, 0), (0, 1)])
      ProgramRuntime.new [] 1 (by decide) (by decide) rfl).1 rfl).1 rfl⟩

/-- Claim C9: running `+[-]` (bytes 43, 91, 45, 93) from the initial state
terminates: loading succeeds, the driver loop finishes with EndOfProgram
within 5 step calls (and not within 4 — exactly four instructions run, so
the loop body runs exactly once), and cell 0 is left at 0 with the counter
one past the end. -/
theorem run_plus_loop_minus_terminates :
    ∃ p rt2, Program.new [43, 91, 45, 93] = .ok p ∧
      runFuel p 5 ProgramRuntime.new [] [] = some (.ok (rt2, [])) ∧
      runFuel p 4 ProgramRuntime.new [] [] = none ∧
      rt2.mem 0 = 0 ∧ rt2.pc = 4 :=
  ⟨⟨[43, 91, 45, 93], [(3, 1), (1, 3)]⟩,
   ⟨4, updf (updf (fun _ => 0) 0 1) 0 0, 0⟩, rfl, rfl, rfl, rfl, rfl⟩

/-- Bracket-free code makes the resolution scan a no-op: it returns the
accumulated links with the stack it started on empty. -/
theorem resolveLinks_no_brackets (l : List Nat) :
    ∀ (i : Nat) (links : List (Nat × Nat)),
    (∀ b ∈ l, b ≠ 91 ∧ b ≠ 93) →
    resolveLinks l i [] links = .ok links := by
  induction l with
  | nil => intro i links _; rfl
  | cons b rest ih =>
    intro i links h
    have hb := h b (List.mem_cons_self b rest)
    have hrec := ih (i + 1) links (fun x hx => h x (List.mem_cons_of_mem b hx))
    simp [resolveLinks, hb.1, hb.2, hrec]

/-- Claim C2: on any input with no loop characters, Program::new succeeds
and the program's instruction sequence is exactly the input filtered to the
eight recognized instruction bytes, in order. -/
theorem new_no_loops_filters (input : List Nat)
    (h : ∀ b ∈ input, b ≠ 91 ∧ b ≠ 93) :
    ∃ p, Program.new input = .ok p ∧
      p.code = List.filter is_valid_bchar input := by
  have hf : ∀ b ∈ List.filter is_valid_bchar input, b ≠ 91 ∧ b ≠ 93 :=
    fun b hb => h b (List.mem_of_mem_filter hb)
  refine ⟨⟨List.filter is_valid_bchar input, []⟩, ?_, rfl⟩
  simp [Program.new, resolveLinks_no_brackets _ 0 [] hf]

/-- Witness for C2: a loop-free input with junk bytes loads and keeps
exactly its instruction bytes. -/
theorem new_no_loops_filters_witness :
    (∀ b ∈ [43, 10, 62, 33], b ≠ 91 ∧ b ≠ 93) ∧
    (∃ p, Program.new [43, 10, 62, 33] = .ok p ∧
      p.code = List.filter is_valid_bchar [43, 10, 62, 33]) :=
  ⟨by decide, new_no_loops_filters [43, 10, 62, 33] (by decide)⟩

/-- A position whose byte is a bracket lies inside the code (out-of-range
getD yields the default 0, which is not a bracket byte). -/
theorem bracket_lt_length {code : List Nat} {k : Nat}
    (h : code.getD k 0 = 91 ∨ code.getD k 0 = 93) : k < code.length := by
  by_contra hk
  rw [List.getD_eq_default _ _ (Nat.le_of_not_lt hk)] at h
  rcases h with h | h <;> omega

/-- Unpacking `code.drop i = b :: rest`: the index is in range, the byte at
it is `b`, and dropping one more gives `rest`. -/
theorem drop_cons_facts {code : List Nat} {i b : Nat} {rest : List Nat}
    (h : code.drop i = b :: rest) :
    i < code.length ∧ code.getD i 0 = b ∧ code.drop (i + 1) = rest := by
  have hlen : code.length - i = rest.length + 1 := by
    have := congrArg List.length h; simpa using this
  have hi : i < code.length := by omega
  refine ⟨hi, ?_, ?_⟩
  · have h0 : (code.drop i)[0]? = some b := by rw [h]; simp
    rw [List.getElem?_drop] at h0
    rw [List.getD_eq_getElem?_getD]
    simp only [Nat.add_zero] at h0
    rw [h0]
    rfl
  · have h1 : code.drop (i + 1) = (code.drop i).drop 1 := by
      rw [List.drop_drop, Nat.add_comm]
    rw [h1, h]; rfl

/-- Invariant of the bracket-resolution scan: starting at position `i` of
`code` (with `l` the remaining suffix), a strictly decreasing stack of
pending loop-start positions below `i`, and a link table whose keys are
bracket positions below `i` outside the stack, closed under the symmetric
lookup, such that every bracket position below `i` is on the stack or in
the table — if the scan returns `ok L`, then every key of `L` is a bracket
position of `code`, `L` is symmetric under lookup, and every bracket
position of `code` is a key of `L`. -/
theorem resolveLinks_ok_inv (code : List Nat) (l : List Nat) :
    ∀ (i : Nat) (stack : List Nat) (links L : List (Nat × Nat)),
    code.drop i = l →
    List.Pairwise (fun a b => b < a) (i :: stack) →
    (∀ q ∈ stack, code.getD q 0 = 91) →
    (∀ k v, lookupLL links k = some v →
      k < i ∧ (code.getD k 0 = 91 ∨ code.getD k 0 = 93)) →
    (∀ k v, lookupLL links k = some v → k ∉ stack) →
    (∀ k v, lookupLL links k = some v → lookupLL links v = some k) →
    (∀ j, j < i → (code.getD j 0 = 91 ∨ code.getD j 0 = 93) →
      j ∈ stack ∨ (lookupLL links j).isSome = true) →
    resolveLinks l i stack links = .ok L →
    ((∀ k v, lookupLL L k = some v →
        k < code.length ∧ (code.getD k 0 = 91 ∨ code.getD k 0 = 93)) ∧
     (∀ k v, lookupLL L k = some v → lookupLL L v = some k) ∧
     (∀ j, j < code.length → (code.getD j 0 = 91 ∨ code.getD j 0 = 93) →
        (lookupLL L j).isSome = true)) := by
  induction l with
  | nil =>
    intro i stack links L hdrop hpw hstack hK1 hK2 hK3 hK4 hok
    have hlen : code.length ≤ i := by
      have h0 := congrArg List.length hdrop
      simp at h0
      omega
    cases stack with
    | cons top stack' => simp [resolveLinks] at hok
    | nil =>
      simp [resolveLinks] at hok
      subst hok
      refine ⟨?_, hK3, ?_⟩
      · intro k v hkv
        obtain ⟨hki, hbr⟩ := hK1 k v hkv
        exact ⟨bracket_lt_length hbr, hbr⟩
      · intro j hj hbr
        rcases hK4 j (by omega) hbr with hj' | hs
        · exact absurd hj' (List.not_mem_nil j)
        · exact hs
  | cons b rest ih =>
    intro i stack links L hdrop hpw hstack hK1 hK2 hK3 hK4 hok
    obtain ⟨hi, hbi, hdrop'⟩ := drop_cons_facts hdrop
    rw [List.pairwise_cons] at hpw
    obtain ⟨hlt, hpwstack⟩ := hpw
    by_cases h91 : b = 91
    · simp only [resolveLinks, h91, if_pos] at hok
      refine ih (i + 1) (i :: stack) links L hdrop' ?_ ?_ ?_ ?_ hK3 ?_ hok
      · rw [List.pairwise_cons]
        constructor
        · intro x hx
          rcases List.mem_cons.mp hx with hx | hx
          · omega
          · have := hlt x hx; omega
        · rw [List.pairwise_cons]; exact ⟨hlt, hpwstack⟩
      · intro q hq
        rcases List.mem_cons.mp hq with hq | hq
        · subst hq; rw [hbi]; exact h91
        · exact hstack q hq
      · intro k v hkv
        obtain ⟨hki, hbr⟩ := hK1 k v hkv
        exact ⟨by omega, hbr⟩
      · intro k v hkv hmem
        have hki := (hK1 k v hkv).1
        rcases List.mem_cons.mp hmem with hk | hk
        · omega
        · exact hK2 k v hkv hk
      · intro j hj hbr
        by_cases hji : j = i
        · subst hji; exact Or.inl (List.mem_cons_self j stack)
        · rcases hK4 j (by omega) hbr with hj' | hs
          · exact Or.inl (List.mem_cons_of_mem i hj')
          · exact Or.inr hs
    · by_cases h93 : b = 93
      · cases stack with
        | nil => simp [resolveLinks, h91, h93] at hok
        | cons top stack' =>
          simp only [resolveLinks, h91, h93, if_neg, if_pos] at hok
          have htopi : top < i := hlt top (List.mem_cons_self top stack')
          have hstack'lt : ∀ x ∈ stack', x < i :=
            fun x hx => hlt x (List.mem_cons_of_mem top hx)
          rw [List.pairwise_cons] at hpwstack
          obtain ⟨htopgt, hpw'⟩ := hpwstack
          have htop91 : code.getD top 0 = 91 :=
            hstack top (List.mem_cons_self top stack')
          have hbi93 : code.getD i 0 = 93 := by rw [hbi]; exact h93
          refine ih (i + 1) stack' ((i, top) :: (top, i) :: links) L hdrop'
            ?_ ?_ ?_ ?_ ?_ ?_ hok
          · rw [List.pairwise_cons]
            exact ⟨fun x hx => by have := hstack'lt x hx; omega, hpw'⟩
          · exact fun q hq => hstack q (List.mem_cons_of_mem top hq)
          · intro k v hkv
            simp only [lookupLL] at hkv
            split_ifs at hkv with hk1 hk2
            · subst hk1
              exact ⟨by omega, Or.inr hbi93⟩
            · subst hk2
              exact ⟨by omega, Or.inl htop91⟩
            · obtain ⟨hki, hbr⟩ := hK1 k v hkv
              exact ⟨by omega, hbr⟩
          · intro k v hkv hmem
            simp only [lookupLL] at hkv
            split_ifs at hkv with hk1 hk2
            · subst hk1
              exact absurd (hstack'lt _ hmem) (by omega)
            · subst hk2
              exact absurd (htopgt _ hmem) (by omega)
            · exact hK2 k v hkv (List.mem_cons_of_mem top hmem)
          · intro k v hkv
            simp only [lookupLL] at hkv
            split_ifs at hkv with hk1 hk2
            · injection hkv with hv
              subst hv
              subst hk1
              simp [lookupLL, show ¬ top = k from by omega]
            · injection hkv with hv
              subst hv
              subst hk2
              simp [lookupLL]
            · have hk3 := hK3 k v hkv
              have hvlt := (hK1 v k hk3).1
              have hvnot := hK2 v k hk3
              have hvne_top : v ≠ top :=
                fun h => hvnot (h ▸ List.mem_cons_self top stack')
              simp [lookupLL, show ¬ v = i from by omega, hvne_top]
              exact hk3
          · intro j hj hbr
            by_cases hji : j = i
            · subst hji
              refine Or.inr ?_
              simp [lookupLL]
            · have hj' : j < i := by omega
              rcases hK4 j hj' hbr with hjs | hs
              · rcases List.mem_cons.mp hjs with hjt | hjs'
                · refine Or.inr ?_
                  rw [hjt]
                  simp [lookupLL, show ¬ top = i from by omega]
                · exact Or.inl hjs'
              · obtain ⟨v, hv⟩ := Option.isSome_iff_exists.mp hs
                have hjne_top : j ≠ top :=
                  fun h => (hK2 j v hv) (h ▸ List.mem_cons_self top stack')
                refine Or.inr ?_
                simp [lookupLL, hji, hjne_top, hv]
      · simp only [resolveLinks, h91, h93, if_neg] at hok
        have hbr_i : ¬(code.getD i 0 = 91 ∨ code.getD i 0 = 93) := by
          rw [hbi]; push_neg; exact ⟨h91, h93⟩
        refine ih (i + 1) stack links L hdrop' ?_ hstack ?_ hK2 hK3 ?_ hok
        · rw [List.pairwise_cons]
          exact ⟨fun x hx => by have := hlt x hx; omega, hpwstack⟩
        · intro k v hkv
          obtain ⟨hki, hbr⟩ := hK1 k v hkv
          exact ⟨by omega, hbr⟩
        · intro j hj hbr
          by_cases hji : j = i
          · subst hji; exact absurd hbr hbr_i
          · exact hK4 j (by omega) hbr

/-- The balanced-bracket condition of the claim, as a depth-counting scan
over a byte sequence: `[` raises the depth, `]` at depth 0 is unbalanced
and otherwise lowers it, other bytes are ignored; the sequence is balanced
when the final depth is 0. -/
def balancedFrom : List Nat → Nat → Bool
  | [], d => d == 0
  | b :: rest, d =>
    if b = 91 then balancedFrom rest (d + 1)
    else if b = 93 then
      if d = 0 then false else balancedFrom rest (d - 1)
    else balancedFrom rest d

/-- A balanced remainder (at depth = current stack height) makes the
resolution scan succeed. -/
theorem balanced_resolveLinks_ok (l : List Nat) :
    ∀ (i : Nat) (stack : List Nat) (links : List (Nat × Nat)),
    balancedFrom l stack.length = true →
    ∃ L, resolveLinks l i stack links = .ok L := by
  induction l with
  | nil =>
    intro i stack links h
    have hs : stack = [] := by
      cases stack with
      | nil => rfl
      | cons a s => simp [balancedFrom] at h
    subst hs
    exact ⟨links, rfl⟩
  | cons b rest ih =>
    intro i stack links h
    by_cases h91 : b = 91
    · simp only [balancedFrom, h91, if_pos] at h
      obtain ⟨L, hL⟩ := ih (i + 1) (i :: stack) links (by simpa using h)
      exact ⟨L, by simp [resolveLinks, h91, hL]⟩
    · by_cases h93 : b = 93
      · cases stack with
        | nil => simp [balancedFrom, h91, h93] at h
        | cons top stack' =>
          simp [balancedFrom, h91, h93] at h
          obtain ⟨L, hL⟩ := ih (i + 1) stack' ((i, top) :: (top, i) :: links)
            (by simpa using h)
          exact ⟨L, by simp [resolveLinks, h91, h93, hL]⟩
      · simp only [balancedFrom, h91, h93, if_neg] at h
        obtain ⟨L, hL⟩ := ih (i + 1) stack links h
        exact ⟨L, by simp [resolveLinks, h91, h93, hL]⟩

/-- Claim C3: whenever the filtered code is bracket-balanced, Program::new
succeeds, its jump-target table is an involution under lookup
(`table[table[i]] = i` for every index with an entry), and only indices
holding a loop-start or loop-end byte have entries. -/
theorem new_balanced_involution (input : List Nat)
    (h : balancedFrom (List.filter is_valid_bchar input) 0 = true) :
    ∃ p, Program.new input = .ok p ∧
      (∀ i j, lookupLL p.loop_links i = some j →
        lookupLL p.loop_links j = some i) ∧
      (∀ i j, lookupLL p.loop_links i = some j →
        i < p.code.length ∧
        (p.code.getD i 0 = 91 ∨ p.code.getD i 0 = 93)) := by
  obtain ⟨L, hL⟩ :=
    balanced_resolveLinks_ok (List.filter is_valid_bchar input) 0 [] [] h
  have hinv := resolveLinks_ok_inv (List.filter is_valid_bchar input)
    (List.filter is_valid_bchar input) 0 [] [] L rfl
    (List.pairwise_singleton _ 0)
    (fun q hq => absurd hq (List.not_mem_nil q))
    (fun k v hkv => by simp [lookupLL] at hkv)
    (fun k v hkv => by simp [lookupLL] at hkv)
    (fun k v hkv => by simp [lookupLL] at hkv)
    (fun j hj _ => absurd hj (Nat.not_lt_zero j))
    hL
  refine ⟨⟨List.filter is_valid_bchar input, L⟩, ?_,
    fun i j => hinv.2.1 i j, fun i j hij => hinv.1 i j hij⟩
  simp [Program.new, hL]

/-- Witness for C3: the balanced source `[]` followed by a junk byte loads
with a symmetric two-entry table. -/
theorem new_balanced_involution_witness :
    balancedFrom (List.filter is_valid_bchar [91, 93, 33]) 0 = true ∧
    (∃ p, Program.new [91, 93, 33] = .ok p ∧
      (∀ i j, lookupLL p.loop_links i = some j →
        lookupLL p.loop_links j = some i) ∧
      (∀ i j, lookupLL p.loop_links i = some j →
        i < p.code.length ∧
        (p.code.getD i 0 = 91 ∨ p.code.getD i 0 = 93))) :=
  ⟨by decide, new_balanced_involution [91, 93, 33] (by decide)⟩

/-- Claim C10: a successfully loaded program contains only the eight
recognized instruction bytes (so step's fallback dispatch branch and its
debug assertion are unreachable), and every position holding `[` or `]`
has a loop-link entry (so the `unwrap` of the table lookup in step's loop
branches cannot panic). -/
theorem new_program_wellformed (input : List Nat) (p : Program)
    (h : Program.new input = .ok p) :
    (∀ i, i < p.code.length → is_valid_bchar (p.code.getD i 0) = true) ∧
    (∀ i, i < p.code.length →
      (p.code.getD i 0 = 91 ∨ p.code.getD i 0 = 93) →
      (lookupLL p.loop_links i).isSome = true) := by
  have hsplit : ∃ L,
      resolveLinks (List.filter is_valid_bchar input) 0 [] [] = .ok L ∧
      p = ⟨List.filter is_valid_bchar input, L⟩ := by
    simp only [Program.new] at h
    cases hres : resolveLinks (List.filter is_valid_bchar input) 0 [] [] with
    | error e => rw [hres] at h; cases h
    | ok L => rw [hres] at h; cases h; exact ⟨L, rfl, rfl⟩
  obtain ⟨L, hres, hp⟩ := hsplit
  subst hp
  have hinv := resolveLinks_ok_inv (List.filter is_valid_bchar input)
    (List.filter is_valid_bchar input) 0 [] [] L rfl
    (List.pairwise_singleton _ 0)
    (fun q hq => absurd hq (List.not_mem_nil q))
    (fun k v hkv => by simp [lookupLL] at hkv)
    (fun k v hkv => by simp [lookupLL] at hkv)
    (fun k v hkv => by simp [lookupLL] at hkv)
    (fun j hj _ => absurd hj (Nat.not_lt_zero j))
    hres
  constructor
  · intro i hi
    have hmem : (List.filter is_valid_bchar input).getD i 0 ∈
        List.filter is_valid_bchar input := by
      rw [List.getD_eq_getElem _ _ hi]
      exact List.getElem_mem hi
    exact List.of_mem_filter hmem
  · intro i hi hbr
    exact hinv.2.2 i hi hbr

/-- Witness for C10: the loaded program `[]` has only instruction bytes and
a table entry for both brackets. -/
theorem new_program_wellformed_witness :
    Program.new [91, 93] = .ok (Program.mk [91, 93] [(1, 0), (0, 1)]) ∧
    (∀ i, i < (Program.mk [91, 93] [(1, 0), (0, 1)]).code.length →
      is_valid_bchar ((Program.mk [91, 93] [(1, 0), (0, 1)]).code.getD i 0) =
        true) ∧
    (∀ i, i < (Program.mk [91, 93] [(1, 0), (0, 1)]).code.length →
      ((Program.mk [91, 93] [(1, 0), (0, 1)]).code.getD i 0 = 91 ∨
       (Program.mk [91, 93] [(1, 0), (0, 1)]).code.getD i 0 = 93) →
      (lookupLL (Program.mk [91, 93] [(1, 0), (0, 1)]).loop_links i).isSome =
        true) :=
  ⟨rfl, (new_program_wellformed [91, 93] _ rfl).1,
    (new_program_wellformed [91, 93] _ rfl).2⟩
